import Mathlib

/-
Verification of the call-graph construction pass
(libsolidity/analysis/FunctionCallGraph.cpp).

The development shallow-embeds the builder: nodes are either special
markers or callable declarations (identified by their stable AST id),
the edge relation is an association list from nodes to deduplicating
callee lists, and the recursive AST walk of `FunctionCallGraphBuilder`
is a fuel-indexed interpreter `step` over an expression AST carrying
the type/lookup annotations the builder reads.  External collaborators
(virtual resolution, super resolution, declaration bodies) are inputs
packaged in `Program`.  A trace of body traversals is recorded so that
visit-once properties can be stated.
-/

namespace SolCG

/-- Special graph nodes, mirroring `FunctionCallGraphBuilder::SpecialNode`. -/
inductive SpecialNode
  | Unset
  | CreationRoot
  | CreationDispatch
  | RuntimeDispatch
deriving DecidableEq, Repr

/-- A graph node: a special marker or a callable declaration referenced by
its stable declaration id (`Node = variant<SpecialNode, CallableDeclaration const*>`). -/
inductive Node
  | special : SpecialNode → Node
  | callable : Nat → Node
deriving DecidableEq, Repr

/-- Mirrors the anonymous-namespace helper `nodeSet`: a node counts as set
unless it is the special node `Unset`. -/
def nodeSet : Node → Bool
  | Node.special s => s ≠ SpecialNode.Unset
  | Node.callable _ => true

/-- Kind of a `FunctionType` (only `Internal` versus the rest matters to the pass). -/
inductive FKind
  | Internal
  | External
  | Creation
  | OtherKind
deriving DecidableEq, Repr

/-- The fragment of `FunctionType` the builder reads: its kind, whether it is
bound, and its declaration (`none` models `hasDeclaration() == false`). -/
structure FunType where
  kind : FKind
  bound : Bool
  declId : Option Nat
deriving DecidableEq, Repr

/-- The fragment of the annotated type of an expression that the builder
inspects via `dynamic_cast` and `category()`. -/
inductive TypeC
  | funT : FunType → TypeC
  | typeT : TypeC → TypeC
  | contractT : Nat → Bool → TypeC
  | moduleT : TypeC
  | otherT : TypeC
deriving DecidableEq, Repr

/-- Kind of a referenced declaration, to mirror the source's `dynamic_cast`
tests to `CallableDeclaration` and `FunctionDefinition`. -/
inductive DeclKind
  | functionDef
  | modifierDef
  | eventDef
  | variableDecl
  | otherDecl
deriving DecidableEq, Repr

/-- Whether a declaration kind is a `CallableDeclaration` subtype. -/
def isCallableDecl : DeclKind → Bool
  | DeclKind.functionDef => true
  | DeclKind.modifierDef => true
  | DeclKind.eventDef => true
  | _ => false

/-- The expression annotation fields read by the builder: the annotated type,
the referenced declaration (id and kind), and `calledDirectly`. -/
structure Ann where
  type : TypeC
  refDecl : Option (Nat × DeclKind)
  calledDirectly : Bool
deriving DecidableEq, Repr

/-- Expression AST restricted to the shapes the visitor distinguishes; every
other node kind is `otherExpr` and only contributes its children.
A `functionCall` carries its own AST node id, the edge target used for
indirect calls. -/
inductive Expr
  | identifier : Ann → Expr
  | memberAccess : Ann → Expr → Expr
  | newExpr : Ann → TypeC → Expr
  | functionCall : Ann → Nat → Expr → List Expr → Expr
  | otherExpr : Ann → List Expr → Expr

/-- The annotated type of an expression (`expression().annotation().type`). -/
def Expr.typeOf : Expr → TypeC
  | Expr.identifier a => a.type
  | Expr.memberAccess a _ => a.type
  | Expr.newExpr a _ => a.type
  | Expr.functionCall a _ _ _ => a.type
  | Expr.otherExpr a _ => a.type

/-- External collaborators of the pass: body of each callable declaration
(what `accept` walks), virtual resolution against the contract under
analysis, and super resolution given the super contract type's contract. -/
structure Program where
  body : Nat → List Expr
  resolveVirtual : Nat → Nat
  resolveSuper : Nat → Nat → Nat

/-- Association-list lookup in the edge map (`m_graph->edges.find`). -/
def lookupEdges : List (Node × List Nat) → Node → Option (List Nat)
  | [], _ => none
  | (k, v) :: rest, n => if k = n then some v else lookupEdges rest n

/-- Replace the value stored under a key of the edge map. -/
def updateEdges : List (Node × List Nat) → Node → List Nat → List (Node × List Nat)
  | [], _, _ => []
  | (k, v) :: rest, n, nv => if k = n then (k, nv) :: rest else (k, v) :: updateEdges rest n nv

/-- Mirrors `FunctionCallGraphBuilder::add`: look the caller up; if absent,
lazily create its entry holding just the callee and report a new edge;
otherwise insert into the existing callee set, reporting whether the
insertion actually happened. -/
def addFn (es : List (Node × List Nat)) (caller : Node) (callee : Nat) :
    List (Node × List Nat) × Bool :=
  match lookupEdges es caller with
  | none => (es ++ [(caller, [callee])], true)
  | some l => if callee ∈ l then (es, false) else (updateEdges es caller (l ++ [callee]), true)

/-- Whether a node has an entry in the edge map (`edges.count`). -/
def hasKey (es : List (Node × List Nat)) (n : Node) : Bool :=
  (lookupEdges es n).isSome

/-- Whether a given edge is present in the edge map. -/
def edgeMem (es : List (Node × List Nat)) (n : Node) (k : Nat) : Bool :=
  decide (k ∈ (lookupEdges es n).getD [])

/-- Deduplicating insertion into `createdContracts` (`std::set::emplace`). -/
def insertCreated (l : List Nat) (c : Nat) : List Nat :=
  if c ∈ l then l else l ++ [c]

/-- One entry of the instrumentation trace: a callable body traversal started
for declaration `decl`, recording whether the declaration already had an
edge-map entry at that moment and which node was the previous caller. -/
structure VisitEv where
  decl : Nat
  hadEntry : Bool
  prev : Node
deriving DecidableEq, Repr

/-- Builder state: the graph under construction plus the ambient caller and
dispatch contexts (`m_currentNode`, `m_currentDispatch`) and the
instrumentation trace.  The dispatch context is only ever assigned special
values in the source, so it is typed as `SpecialNode`. -/
structure BState where
  edges : List (Node × List Nat)
  createdContracts : List Nat
  currentNode : Node
  currentDispatch : SpecialNode
  trace : List VisitEv
deriving DecidableEq, Repr

/-- Branches 2 to 4 of `visit(MemberAccess)`: direct `ContractType.function`
access (static lookup), free function referenced through a module, and
super access.  Returns the declaration the branch chain would process.
Reference-cast branches are assumed to succeed on the annotated input. -/
def maResolveRest (P : Program) (a : Ann) (baseTy : TypeC) : Option Nat :=
  match baseTy with
  | TypeC.typeT (TypeC.contractT _ _) =>
    match a.type with
    | TypeC.funT ft =>
      if ft.kind = FKind.Internal then
        match a.refDecl with
        | some (d, DeclKind.functionDef) => some d
        | _ => none
      else none
    | _ => none
  | TypeC.moduleT =>
    match a.refDecl with
    | some (d, DeclKind.functionDef) => some d
    | _ => none
  | TypeC.contractT cid true =>
    match a.refDecl with
    | some (d, _) => some (P.resolveSuper d cid)
    | _ => none
  | _ => none

/-- Branch chain of `visit(MemberAccess)`: bound internal functions are
handled first (processing the function type's declaration directly), then
the static/module/super branches of `maResolveRest`. -/
def maResolve (P : Program) (a : Ann) (baseTy : TypeC) : Option Nat :=
  match a.type with
  | TypeC.funT ft =>
    if ft.bound = true ∧ ft.kind = FKind.Internal then ft.declId
    else maResolveRest P a baseTy
  | _ => maResolveRest P a baseTy

/-- Requests of the interpreter, one per mutually recursive builder routine:
visiting one expression subtree, a list of subtrees, `processFunction`,
and `visitCallable`. -/
inductive Req
  | expr : Expr → Req
  | exprs : List Expr → Req
  | procF : Nat → Bool → Req
  | callable : Nat → Req

/-- Fuel-indexed interpreter of the builder's recursive AST walk.  Each
constructor of `Req` mirrors one routine of the source:

* `expr (identifier a)` — `visit(Identifier)`: a reference to a callable
  declaration is processed after virtual resolution;
* `expr (memberAccess a base)` — `visit(MemberAccess)`: the branch chain of
  `maResolve`, then the base expression is still walked (the visitor always
  returns `true`);
* `expr (newExpr a t)` — `visit(NewExpression)`: a contract type name records
  the created contract;
* `expr (functionCall a nid callee args)` — children first, then
  `endVisit(FunctionCall)`: an internal function type without declaration
  adds an edge from the current dispatch node to the call expression;
* `procF d cd` — `processFunction`: stop if the declaration already has an
  edge-map entry, add the dispatch edge when the call was not direct, then
  visit the callable;
* `callable d` — `visitCallable`: record the traversal, set the current
  caller to the callable, add the edge from the previous caller when that
  one is set, walk the body, restore the caller. -/
def step (P : Program) : Nat → BState → Req → Option BState
  | 0, _, _ => none
  | fuel + 1, s, Req.expr (Expr.identifier a) =>
    match a.refDecl with
    | some (d, k) =>
      if isCallableDecl k then
        step P fuel s (Req.procF (P.resolveVirtual d) a.calledDirectly)
      else some s
    | none => some s
  | fuel + 1, s, Req.expr (Expr.memberAccess a base) =>
    (match maResolve P a base.typeOf with
      | some d => step P fuel s (Req.procF d a.calledDirectly)
      | none => some s).bind
      (fun s1 => step P fuel s1 (Req.expr base))
  | _ + 1, s, Req.expr (Expr.newExpr _ t) =>
    match t with
    | TypeC.contractT cid _ =>
      some { s with createdContracts := insertCreated s.createdContracts cid }
    | _ => some s
  | fuel + 1, s, Req.expr (Expr.functionCall _ nid callee args) =>
    match step P fuel s (Req.expr callee) with
    | none => none
    | some s1 =>
      match step P fuel s1 (Req.exprs args) with
      | none => none
      | some s2 =>
        match callee.typeOf with
        | TypeC.funT ft =>
          if ft.kind = FKind.Internal ∧ ft.declId = none then
            some { s2 with
              edges := (addFn s2.edges (Node.special s2.currentDispatch) nid).1 }
          else some s2
        | _ => some s2
  | fuel + 1, s, Req.expr (Expr.otherExpr _ children) => step P fuel s (Req.exprs children)
  | _ + 1, s, Req.exprs [] => some s
  | fuel + 1, s, Req.exprs (e :: es) =>
    match step P fuel s (Req.expr e) with
    | none => none
    | some s1 => step P fuel s1 (Req.exprs es)
  | fuel + 1, s, Req.procF d cd =>
    if (lookupEdges s.edges (Node.callable d)).isSome = true then some s
    else
      step P fuel
        (if cd then s
         else { s with edges := (addFn s.edges (Node.special s.currentDispatch) d).1 })
        (Req.callable d)
  | fuel + 1, s, Req.callable d =>
    let s1 : BState :=
      { s with
        currentNode := Node.callable d
        trace := s.trace ++
          [⟨d, (lookupEdges s.edges (Node.callable d)).isSome, s.currentNode⟩] }
    let s2 : BState :=
      if nodeSet s.currentNode then { s1 with edges := (addFn s1.edges s.currentNode d).1 }
      else s1
    match step P fuel s2 (Req.exprs (P.body d)) with
    | none => none
    | some s3 => some { s3 with currentNode := s.currentNode }

/-- Wrapper naming the expression-visit routine of the interpreter. -/
abbrev visitExpr (P : Program) (fuel : Nat) (s : BState) (e : Expr) : Option BState :=
  step P fuel s (Req.expr e)

/-- Wrapper naming the expression-list walk of the interpreter. -/
abbrev visitExprs (P : Program) (fuel : Nat) (s : BState) (es : List Expr) : Option BState :=
  step P fuel s (Req.exprs es)

/-- Wrapper naming `FunctionCallGraphBuilder::processFunction`. -/
abbrev processFunction (P : Program) (fuel : Nat) (s : BState) (d : Nat) (cd : Bool) :
    Option BState :=
  step P fuel s (Req.procF d cd)

/-- Wrapper naming `FunctionCallGraphBuilder::visitCallable`. -/
abbrev visitCallable (P : Program) (fuel : Nat) (s : BState) (d : Nat) : Option BState :=
  step P fuel s (Req.callable d)

/-- One level of the linearized base-contract chain, as read by
`visitConstructor`: the state variable subtrees, the inheritance-specifier
argument subtrees, and the optional constructor declaration. -/
structure ContractLevel where
  stateVars : List Expr
  baseArgs : List Expr
  ctor : Option Nat

/-- The contract data consumed by `create`: its own level, the remaining
linearized base contracts (most-derived first), the interface function
list (declaration id and kind per entry), and the optional fallback and
receive functions. -/
structure Contract where
  self : ContractLevel
  bases : List ContractLevel
  interfaceList : List (Nat × DeclKind)
  fallbackFn : Option Nat
  receiveFn : Option Nat

/-- The per-level work of `visitConstructor`: visit this level's state
variables, then its base-constructor arguments, then, if present, add an
edge from the current caller to the constructor and walk its body. -/
def visitLevel (P : Program) (fuel : Nat) (c : ContractLevel) (s1 : BState) : Option BState :=
  (visitExprs P fuel s1 c.stateVars).bind
    (fun s2 =>
      (visitExprs P fuel s2 c.baseArgs).bind
        (fun s3 =>
          match c.ctor with
          | none => some s3
          | some d =>
            visitExprs P fuel
              { s3 with edges := (addFn s3.edges s3.currentNode d).1 }
              (P.body d)))

/-- Mirrors `FunctionCallGraphBuilder::visitConstructor`: recurse into the
remaining linearized bases first (so the most-base level is processed
first), then do this level's work. -/
def visitConstructor (P : Program) (fuel : Nat) :
    ContractLevel → List ContractLevel → BState → Option BState
  | c, rest, s =>
    (match rest with
      | [] => some s
      | c2 :: rest2 => visitConstructor P fuel c2 rest2 s).bind (visitLevel P fuel c)

/-- One iteration of the runtime-phase loop of `create`: an interface entry
whose declaration is a `FunctionDefinition` and has no edge-map entry yet
is traversed via `visitCallable`; all other entries are skipped. -/
def interfaceStep (P : Program) (fuel : Nat) (s : BState) : Nat × DeclKind → Option BState
  | (d, k) =>
    if k = DeclKind.functionDef then
      if hasKey s.edges (Node.callable d) then some s
      else visitCallable P fuel s d
    else some s

/-- The runtime-phase loop of `create` over the interface function list. -/
def interfaceLoop (P : Program) (fuel : Nat) : BState → List (Nat × DeclKind) → Option BState
  | s, [] => some s
  | s, ent :: rest =>
    match interfaceStep P fuel s ent with
    | none => none
    | some s1 => interfaceLoop P fuel s1 rest

/-- Fold `addFn` with a fixed caller over a list of callees. -/
def addAll (caller : Node) : List Nat → List (Node × List Nat) → List (Node × List Nat)
  | [], es => es
  | k :: rest, es => addAll caller rest (addFn es caller k).1

/-- Mirrors the default-inserting map access `edges[SpecialNode::CreationDispatch]`
of the merge step: return the stored callee list, inserting an entry with an
empty list when the key is absent. -/
def getOrInsertEmpty (es : List (Node × List Nat)) (k : Node) :
    List (Node × List Nat) × List Nat :=
  match lookupEdges es k with
  | some v => (es, v)
  | none => (es ++ [(k, [])], [])

/-- Add an optional callee (used for the fallback and receive functions). -/
def addOpt (es : List (Node × List Nat)) (caller : Node) : Option Nat → List (Node × List Nat)
  | none => es
  | some k => (addFn es caller k).1

/-- The tail of `create` after both traversal phases: merge every
`CreationDispatch` callee into `RuntimeDispatch` (the map access
default-inserts the `CreationDispatch` key), then add every interface
function declaration and, when present, the fallback and receive functions
as callees of `RuntimeDispatch`. -/
def finishGraph (c : Contract) (s : BState) : BState :=
  let rd := Node.special SpecialNode.RuntimeDispatch
  let p := getOrInsertEmpty s.edges (Node.special SpecialNode.CreationDispatch)
  let es2 := addAll rd p.2 p.1
  let es3 := addAll rd (c.interfaceList.map Prod.fst) es2
  let es4 := addOpt es3 rd c.fallbackFn
  let es5 := addOpt es4 rd c.receiveFn
  { s with edges := es5 }

/-- The state at the start of `create`: empty graph, caller context
`CreationRoot`, dispatch context `CreationDispatch`. -/
def initialState : BState :=
  { edges := []
    createdContracts := []
    currentNode := Node.special SpecialNode.CreationRoot
    currentDispatch := SpecialNode.CreationDispatch
    trace := [] }

/-- Mirrors `FunctionCallGraphBuilder::create`: run the creation phase over
the linearized base-contract chain, reset the caller context and switch the
dispatch context to `RuntimeDispatch`, traverse every externally visible
function definition not already present as a graph node, and assemble the
final graph with `finishGraph`. -/
def create (P : Program) (fuel : Nat) (c : Contract) : Option BState :=
  match visitConstructor P fuel c.self c.bases initialState with
  | none => none
  | some s1 =>
    match
      interfaceLoop P fuel
        { s1 with
          currentNode := Node.special SpecialNode.Unset
          currentDispatch := SpecialNode.RuntimeDispatch }
        c.interfaceList
    with
    | none => none
    | some s2 => some (finishGraph c s2)

/-- Number of body traversals recorded for a declaration. -/
def countVisits (t : List VisitEv) (d : Nat) : Nat :=
  (t.filter (fun ev => ev.decl == d)).length

/-- Children of a `FunctionCall` as the builder walks them: the callee
expression first, then the argument expressions. -/
def childrenRun (P : Program) (fuel : Nat) (s : BState) (callee : Expr) (args : List Expr) :
    Option BState :=
  (visitExpr P fuel s callee).bind (fun s1 => visitExprs P fuel s1 args)

/-- Demo program for concrete runs: declaration 9 (a constructor) performs an
indirect call through an internal function value (call-expression id 7); all
other bodies are empty. -/
def demoP : Program :=
  { body := fun d =>
      if d = 9 then
        [Expr.functionCall ⟨TypeC.otherT, none, false⟩ 7
          (Expr.identifier ⟨TypeC.funT ⟨FKind.Internal, false, none⟩, none, false⟩) []]
      else []
    resolveVirtual := fun d => d
    resolveSuper := fun d _ => d }

/-- Demo contract: constructor 9, one externally visible function 1, a
fallback function 3 and a receive function 4. -/
def demoK : Contract :=
  { self := ⟨[], [], some 9⟩
    bases := []
    interfaceList := [(1, DeclKind.functionDef)]
    fallbackFn := some 3
    receiveFn := some 4 }

/-- The graph `create` produces for the demo contract. -/
def demoS : BState :=
  { edges := [(Node.special SpecialNode.CreationRoot, [9]),
              (Node.special SpecialNode.CreationDispatch, [7]),
              (Node.special SpecialNode.RuntimeDispatch, [7, 1, 3, 4])]
    createdContracts := []
    currentNode := Node.special SpecialNode.Unset
    currentDispatch := SpecialNode.RuntimeDispatch
    trace := [⟨1, false, Node.special SpecialNode.Unset⟩] }

/-- Counterexample contract whose only interface entry is a getter of a
public state variable: its declaration is a `VariableDeclaration`, not a
`FunctionDefinition`. -/
def getterK : Contract :=
  ⟨⟨[], [], none⟩, [], [(5, DeclKind.variableDecl)], none, none⟩

/-- A state with caller context cleared and dispatch context
`RuntimeDispatch`, as at the start of the runtime phase. -/
def runtimeS : BState :=
  { edges := []
    createdContracts := []
    currentNode := Node.special SpecialNode.Unset
    currentDispatch := SpecialNode.RuntimeDispatch
    trace := [] }

/-- A state in which callable 1 already has an edge-map entry. -/
def entryS : BState :=
  { edges := [(Node.callable 1, [2])]
    createdContracts := []
    currentNode := Node.special SpecialNode.CreationRoot
    currentDispatch := SpecialNode.CreationDispatch
    trace := [] }

/-! Basic lemmas about the edge-map operations. -/

theorem lookup_append_some {more : List (Node × List Nat)} {n : Node} {l : List Nat} :
    ∀ es, lookupEdges es n = some l → lookupEdges (es ++ more) n = some l := by
  intro es
  induction es with
  | nil => intro h; simp [lookupEdges] at h
  | cons p rest ih =>
    intro h
    obtain ⟨k, v⟩ := p
    by_cases hk : k = n
    · simpa [lookupEdges, hk] using (by simpa [lookupEdges, hk] using h)
    · simp only [List.cons_append, lookupEdges, if_neg hk] at h ⊢
      exact ih h

theorem lookup_append_none {more : List (Node × List Nat)} {n : Node} :
    ∀ es, lookupEdges es n = none → lookupEdges (es ++ more) n = lookupEdges more n := by
  intro es
  induction es with
  | nil => intro _; simp
  | cons p rest ih =>
    intro h
    obtain ⟨k, v⟩ := p
    by_cases hk : k = n
    · simp [lookupEdges, hk] at h
    · simp only [List.cons_append, lookupEdges, if_neg hk] at h ⊢
      exact ih h

theorem lookup_update_self {n : Node} {nv : List Nat} :
    ∀ es, (lookupEdges es n).isSome = true →
      lookupEdges (updateEdges es n nv) n = some nv := by
  intro es
  induction es with
  | nil => intro h; simp [lookupEdges] at h
  | cons p rest ih =>
    intro h
    obtain ⟨k, v⟩ := p
    by_cases hk : k = n
    · simp [updateEdges, lookupEdges, hk]
    · simp only [lookupEdges, if_neg hk] at h
      simp only [updateEdges, if_neg hk, lookupEdges, if_neg hk]
      exact ih h

theorem lookup_update_other {n m : Node} {nv : List Nat} (hnm : m ≠ n) :
    ∀ es, lookupEdges (updateEdges es n nv) m = lookupEdges es m := by
  intro es
  induction es with
  | nil => simp [updateEdges]
  | cons p rest ih =>
    obtain ⟨k, v⟩ := p
    by_cases hk : k = n
    · subst hk
      have hkm : k ≠ m := fun h2 => hnm h2.symm
      simp [updateEdges, lookupEdges, hkm]
    · simp only [updateEdges, if_neg hk, lookupEdges]
      by_cases hm : k = m
      · simp [hm]
      · simp only [if_neg hm]
        exact ih

theorem addFn_lookup_self (es : List (Node × List Nat)) (c : Node) (k : Nat) :
    lookupEdges (addFn es c k).1 c =
      some (match lookupEdges es c with
            | none => [k]
            | some l => if k ∈ l then l else l ++ [k]) := by
  unfold addFn
  cases h : lookupEdges es c with
  | none =>
    simp only []
    rw [lookup_append_none es h]
    simp [lookupEdges]
  | some l =>
    by_cases hk : k ∈ l
    · simp [hk, h]
    · simp only [if_neg hk]
      exact lookup_update_self es (by simp [h])

theorem addFn_lookup_other {es : List (Node × List Nat)} {c n : Node} {k : Nat} (h : n ≠ c) :
    lookupEdges (addFn es c k).1 n = lookupEdges es n := by
  unfold addFn
  cases hc : lookupEdges es c with
  | none =>
    simp only []
    cases hn : lookupEdges es n with
    | some l => exact lookup_append_some es hn
    | none =>
      rw [lookup_append_none es hn]
      simp [lookupEdges, Ne.symm h, hn]
  | some l =>
    by_cases hk : k ∈ l
    · simp [hk]
    · simp only [if_neg hk]
      exact lookup_update_other h es

theorem addFn_edgeMem_self (es : List (Node × List Nat)) (c : Node) (k : Nat) :
    edgeMem (addFn es c k).1 c k = true := by
  simp only [edgeMem, decide_eq_true_eq]
  rw [addFn_lookup_self es c k]
  cases hl : lookupEdges es c with
  | none => simp
  | some l =>
    by_cases hk : k ∈ l
    · simp [hk]
    · simp [hk]

theorem addFn_edgeMem_mono {es : List (Node × List Nat)} {n : Node} {k' : Nat}
    (c : Node) (k : Nat) (h : edgeMem es n k' = true) :
    edgeMem (addFn es c k).1 n k' = true := by
  simp only [edgeMem, decide_eq_true_eq] at h ⊢
  by_cases hn : n = c
  · subst hn
    rw [addFn_lookup_self es n k]
    cases hl : lookupEdges es n with
    | none => rw [hl] at h; simp at h
    | some l =>
      rw [hl] at h
      simp only [Option.getD_some] at h ⊢
      by_cases hk : k ∈ l
      · simp [hk, h]
      · simp [hk, h]
  · rw [addFn_lookup_other hn]
    exact h

theorem addFn_hasKey_mono {es : List (Node × List Nat)} {n : Node} (c : Node) (k : Nat)
    (h : hasKey es n = true) : hasKey (addFn es c k).1 n = true := by
  simp only [hasKey] at h ⊢
  by_cases hn : n = c
  · subst hn; rw [addFn_lookup_self]; simp
  · rw [addFn_lookup_other hn]; exact h

theorem addFn_hasKey_inv {es : List (Node × List Nat)} {n c : Node} {k : Nat}
    (h : hasKey (addFn es c k).1 n = true) : hasKey es n = true ∨ n = c := by
  by_cases hn : n = c
  · right; exact hn
  · left
    simp only [hasKey] at h ⊢
    rw [addFn_lookup_other hn] at h
    exact h

theorem addFn_snd (es : List (Node × List Nat)) (c : Node) (k : Nat) :
    (addFn es c k).2 = !(edgeMem es c k) := by
  unfold addFn edgeMem
  cases h : lookupEdges es c with
  | none => simp
  | some l => by_cases hk : k ∈ l <;> simp [hk]

theorem goi_lookup_self (es : List (Node × List Nat)) (k : Node) :
    lookupEdges (getOrInsertEmpty es k).1 k = some (getOrInsertEmpty es k).2 := by
  unfold getOrInsertEmpty
  cases h : lookupEdges es k with
  | some v => simpa using h
  | none =>
    simp only []
    rw [lookup_append_none es h]
    simp [lookupEdges]

theorem goi_lookup_other {es : List (Node × List Nat)} {k n : Node} (hn : n ≠ k) :
    lookupEdges (getOrInsertEmpty es k).1 n = lookupEdges es n := by
  unfold getOrInsertEmpty
  cases h : lookupEdges es k with
  | some v => simp
  | none =>
    simp only []
    cases hn2 : lookupEdges es n with
    | some l => exact lookup_append_some es hn2
    | none =>
      rw [lookup_append_none es hn2]
      simp [lookupEdges, Ne.symm hn, hn2]

theorem goi_mem_snd {es : List (Node × List Nat)} {k : Node} {x : Nat} :
    x ∈ (getOrInsertEmpty es k).2 ↔ edgeMem es k x = true := by
  unfold getOrInsertEmpty
  simp only [edgeMem, decide_eq_true_eq]
  cases h : lookupEdges es k <;> simp

theorem goi_hasKey_self (es : List (Node × List Nat)) (k : Node) :
    hasKey (getOrInsertEmpty es k).1 k = true := by
  simp [hasKey, goi_lookup_self]

theorem goi_hasKey_mono {es : List (Node × List Nat)} {n : Node} (k : Node)
    (h : hasKey es n = true) : hasKey (getOrInsertEmpty es k).1 n = true := by
  by_cases hn : n = k
  · subst hn; exact goi_hasKey_self es n
  · simp only [hasKey] at h ⊢
    rw [goi_lookup_other hn]
    exact h

theorem goi_hasKey_inv {es : List (Node × List Nat)} {n k : Node}
    (h : hasKey (getOrInsertEmpty es k).1 n = true) : hasKey es n = true ∨ n = k := by
  by_cases hn : n = k
  · right; exact hn
  · left
    simp only [hasKey] at h ⊢
    rw [goi_lookup_other hn] at h
    exact h

theorem goi_edgeMem_mono {es : List (Node × List Nat)} {n : Node} {x : Nat} (k : Node)
    (h : edgeMem es n x = true) : edgeMem (getOrInsertEmpty es k).1 n x = true := by
  by_cases hn : n = k
  · subst hn
    simp only [edgeMem, decide_eq_true_eq]
    rw [goi_lookup_self]
    simpa using goi_mem_snd.mpr h
  · simp only [edgeMem, decide_eq_true_eq] at h ⊢
    rw [goi_lookup_other hn]
    exact h

theorem addAll_lookup_other {c n : Node} (hn : n ≠ c) :
    ∀ (l : List Nat) (es : List (Node × List Nat)),
      lookupEdges (addAll c l es) n = lookupEdges es n := by
  intro l
  induction l with
  | nil => intro es; simp [addAll]
  | cons x rest ih =>
    intro es
    simp only [addAll]
    rw [ih]
    exact addFn_lookup_other hn

theorem addAll_edgeMem_mono {n : Node} {k : Nat} (c : Node) :
    ∀ (l : List Nat) (es : List (Node × List Nat)),
      edgeMem es n k = true → edgeMem (addAll c l es) n k = true := by
  intro l
  induction l with
  | nil => intro es h; simpa [addAll] using h
  | cons x rest ih =>
    intro es h
    exact ih _ (addFn_edgeMem_mono c x h)

theorem addAll_hasKey_mono {n : Node} (c : Node) :
    ∀ (l : List Nat) (es : List (Node × List Nat)),
      hasKey es n = true → hasKey (addAll c l es) n = true := by
  intro l
  induction l with
  | nil => intro es h; simpa [addAll] using h
  | cons x rest ih =>
    intro es h
    exact ih _ (addFn_hasKey_mono c x h)

theorem addAll_hasKey_inv {n c : Node} :
    ∀ (l : List Nat) (es : List (Node × List Nat)),
      hasKey (addAll c l es) n = true → hasKey es n = true ∨ n = c := by
  intro l
  induction l with
  | nil => intro es h; left; simpa [addAll] using h
  | cons x rest ih =>
    intro es h
    rcases ih _ h with h2 | h2
    · exact addFn_hasKey_inv h2
    · right; exact h2

theorem addAll_mem_self (c : Node) :
    ∀ (l : List Nat) (es : List (Node × List Nat)) (x : Nat),
      x ∈ l → edgeMem (addAll c l es) c x = true := by
  intro l
  induction l with
  | nil => intro es x h; simp at h
  | cons y rest ih =>
    intro es x h
    rcases List.mem_cons.mp h with h1 | h2
    · subst h1
      exact addAll_edgeMem_mono c rest _ (addFn_edgeMem_self es c x)
    · exact ih _ x h2

theorem addOpt_edgeMem_mono {es : List (Node × List Nat)} {n : Node} {k : Nat}
    (c : Node) (o : Option Nat) (h : edgeMem es n k = true) :
    edgeMem (addOpt es c o) n k = true := by
  cases o with
  | none => simpa [addOpt] using h
  | some f => exact addFn_edgeMem_mono c f h

theorem addOpt_hasKey_mono {es : List (Node × List Nat)} {n : Node} (c : Node)
    (o : Option Nat) (h : hasKey es n = true) : hasKey (addOpt es c o) n = true := by
  cases o with
  | none => simpa [addOpt] using h
  | some f => exact addFn_hasKey_mono c f h

theorem addOpt_hasKey_inv {es : List (Node × List Nat)} {n c : Node} {o : Option Nat}
    (h : hasKey (addOpt es c o) n = true) : hasKey es n = true ∨ n = c := by
  cases o with
  | none => left; simpa [addOpt] using h
  | some f => exact addFn_hasKey_inv h

/-- Facts preserved by every interpreter run: the dispatch and caller
contexts are restored, the trace only grows, and keys and edges of the
graph are never removed. -/
def StepOk (s s' : BState) : Prop :=
  s'.currentDispatch = s.currentDispatch ∧
  s'.currentNode = s.currentNode ∧
  (∀ ev, ev ∈ s.trace → ev ∈ s'.trace) ∧
  (∀ n, hasKey s.edges n = true → hasKey s'.edges n = true) ∧
  (∀ n k, edgeMem s.edges n k = true → edgeMem s'.edges n k = true)

theorem stepOk_refl (s : BState) : StepOk s s :=
  ⟨Eq.refl _, Eq.refl _, fun _ h => h, fun _ h => h, fun _ _ h => h⟩

theorem StepOk.trans {s1 s2 s3 : BState} (h1 : StepOk s1 s2) (h2 : StepOk s2 s3) :
    StepOk s1 s3 := by
  obtain ⟨a1, b1, c1, d1, e1⟩ := h1
  obtain ⟨a2, b2, c2, d2, e2⟩ := h2
  exact ⟨a2.trans a1, b2.trans b1, fun ev h => c2 ev (c1 ev h),
    fun n h => d2 n (d1 n h), fun n k h => e2 n k (e1 n k h)⟩

theorem stepOk_addFn (s : BState) (c : Node) (k : Nat) :
    StepOk s { s with edges := (addFn s.edges c k).1 } :=
  ⟨rfl, rfl, fun _ h => h, fun _ h => addFn_hasKey_mono c k h,
    fun _ _ h => addFn_edgeMem_mono c k h⟩

theorem stepOk_created (s : BState) (l : List Nat) :
    StepOk s { s with createdContracts := l } :=
  ⟨rfl, rfl, fun _ h => h, fun _ h => h, fun _ _ h => h⟩

/-- Master monotonicity lemma: any successful interpreter run restores the
caller and dispatch contexts, only appends to the trace, and only adds
keys and edges. -/
theorem step_mono (P : Program) :
    ∀ (fuel : Nat) (r : Req) (s s' : BState), step P fuel s r = some s' → StepOk s s' := by
  intro fuel
  induction fuel with
  | zero => intro r s s' h; simp [step] at h
  | succ fuel ih =>
    intro r s s' h
    cases r with
    | expr e =>
      cases e with
      | identifier a =>
        simp only [step] at h
        split at h
        · split at h
          · exact ih _ _ _ h
          · cases h; exact stepOk_refl _
        · cases h; exact stepOk_refl _
      | memberAccess a base =>
        simp only [step] at h
        split at h
        · rename_i d hma
          rcases h1 : step P fuel s (Req.procF d a.calledDirectly) with _ | s1 <;>
            rw [h1] at h
          · simp at h
          · simp only [Option.some_bind] at h
            exact (ih _ _ _ h1).trans (ih _ _ _ h)
        · simp only [Option.some_bind] at h
          exact ih _ _ _ h
      | newExpr a t =>
        simp only [step] at h
        split at h
        · cases h; exact stepOk_created _ _
        · cases h; exact stepOk_refl _
      | functionCall a nid callee args =>
        simp only [step] at h
        split at h
        · exact absurd h (by simp)
        · rename_i s1 h1
          split at h
          · exact absurd h (by simp)
          · rename_i s2 h2
            have hs1 : StepOk s s1 := ih _ _ _ h1
            have hs2 : StepOk s1 s2 := ih _ _ _ h2
            split at h
            · split at h
              · cases h; exact (hs1.trans hs2).trans (stepOk_addFn _ _ _)
              · cases h; exact hs1.trans hs2
            · cases h; exact hs1.trans hs2
      | otherExpr a children =>
        simp only [step] at h
        exact ih _ _ _ h
    | exprs es =>
      cases es with
      | nil => simp only [step] at h; cases h; exact stepOk_refl _
      | cons e rest =>
        simp only [step] at h
        split at h
        · exact absurd h (by simp)
        · rename_i s1 h1
          exact (ih _ _ _ h1).trans (ih _ _ _ h)
    | procF d cd =>
      simp only [step] at h
      split at h
      · cases h; exact stepOk_refl _
      · cases cd with
        | true => simp only [if_pos rfl] at h; exact ih _ _ _ h
        | false =>
          rw [if_neg (by decide : ¬ (false = true))] at h
          exact (stepOk_addFn _ _ _).trans (ih _ _ _ h)
    | callable d =>
      simp only [step] at h
      set s1 : BState :=
        { s with
          currentNode := Node.callable d
          trace := s.trace ++
            [⟨d, (lookupEdges s.edges (Node.callable d)).isSome, s.currentNode⟩] } with hs1
      by_cases hns : nodeSet s.currentNode = true
      · rw [if_pos hns] at h
        rcases h3 : step P fuel { s1 with edges := (addFn s1.edges s.currentNode d).1 }
            (Req.exprs (P.body d)) with _ | s3 <;> rw [h3] at h
        · simp at h
        · simp only [Option.some.injEq] at h
          subst h
          have hok := ih _ _ _ h3
          obtain ⟨hd3, hn3, ht3, hk3, he3⟩ := hok
          refine ⟨hd3, by simp, ?_, ?_, ?_⟩
          · intro ev hev
            exact ht3 ev (List.mem_append_left _ hev)
          · intro n hn
            exact hk3 n (addFn_hasKey_mono _ _ hn)
          · intro n k hnk
            exact he3 n k (addFn_edgeMem_mono _ _ hnk)
      · rw [if_neg hns] at h
        rcases h3 : step P fuel s1 (Req.exprs (P.body d)) with _ | s3 <;> rw [h3] at h
        · simp at h
        · simp only [Option.some.injEq] at h
          subst h
          have hok := ih _ _ _ h3
          obtain ⟨hd3, hn3, ht3, hk3, he3⟩ := hok
          refine ⟨hd3, by simp, ?_, ?_, ?_⟩
          · intro ev hev
            exact ht3 ev (List.mem_append_left _ hev)
          · intro n hn
            exact hk3 n hn
          · intro n k hnk
            exact he3 n k hnk

theorem nodeSet_ne {n : Node} (h : nodeSet n = true) :
    n ≠ Node.special SpecialNode.Unset := by
  intro he
  subst he
  simp [nodeSet] at h

theorem addFn_noUnset {es : List (Node × List Nat)} {c : Node} {k : Nat}
    (hc : c ≠ Node.special SpecialNode.Unset)
    (h : hasKey es (Node.special SpecialNode.Unset) = false) :
    hasKey (addFn es c k).1 (Node.special SpecialNode.Unset) = false := by
  cases hv : hasKey (addFn es c k).1 (Node.special SpecialNode.Unset) with
  | false => rfl
  | true =>
    rcases addFn_hasKey_inv hv with h2 | h2
    · simp [h] at h2
    · exact absurd h2.symm hc

/-- During any interpreter run whose dispatch context is set, the special
node `Unset` never becomes a key of the edge map. -/
theorem step_noUnset (P : Program) :
    ∀ (fuel : Nat) (r : Req) (s s' : BState), step P fuel s r = some s' →
      s.currentDispatch ≠ SpecialNode.Unset →
      hasKey s.edges (Node.special SpecialNode.Unset) = false →
      hasKey s'.edges (Node.special SpecialNode.Unset) = false := by
  intro fuel
  induction fuel with
  | zero => intro r s s' h; simp [step] at h
  | succ fuel ih =>
    intro r s s' h hd hu
    cases r with
    | expr e =>
      cases e with
      | identifier a =>
        simp only [step] at h
        split at h
        · split at h
          · exact ih _ _ _ h hd hu
          · cases h; exact hu
        · cases h; exact hu
      | memberAccess a base =>
        simp only [step] at h
        split at h
        · rename_i d hma
          rcases h1 : step P fuel s (Req.procF d a.calledDirectly) with _ | s1 <;>
            rw [h1] at h
          · simp at h
          · simp only [Option.some_bind] at h
            have hd1 : s1.currentDispatch = s.currentDispatch := (step_mono P _ _ _ _ h1).1
            exact ih _ _ _ h (by rw [hd1]; exact hd) (ih _ _ _ h1 hd hu)
        · simp only [Option.some_bind] at h
          exact ih _ _ _ h hd hu
      | newExpr a t =>
        simp only [step] at h
        split at h
        · cases h; exact hu
        · cases h; exact hu
      | functionCall a nid callee args =>
        simp only [step] at h
        split at h
        · exact absurd h (by simp)
        · rename_i s1 h1
          split at h
          · exact absurd h (by simp)
          · rename_i s2 h2
            have hd1 : s1.currentDispatch = s.currentDispatch := (step_mono P _ _ _ _ h1).1
            have hd2 : s2.currentDispatch = s1.currentDispatch := (step_mono P _ _ _ _ h2).1
            have hu2 : hasKey s2.edges (Node.special SpecialNode.Unset) = false :=
              ih _ _ _ h2 (by rw [hd1]; exact hd) (ih _ _ _ h1 hd hu)
            have hdd : Node.special s2.currentDispatch ≠ Node.special SpecialNode.Unset := by
              intro hx
              apply hd
              rw [← hd1, ← hd2]
              exact Node.special.inj hx
            split at h
            · split at h
              · cases h; exact addFn_noUnset hdd hu2
              · cases h; exact hu2
            · cases h; exact hu2
      | otherExpr a children =>
        simp only [step] at h
        exact ih _ _ _ h hd hu
    | exprs es =>
      cases es with
      | nil => simp only [step] at h; cases h; exact hu
      | cons e rest =>
        simp only [step] at h
        split at h
        · exact absurd h (by simp)
        · rename_i s1 h1
          have hd1 : s1.currentDispatch = s.currentDispatch := (step_mono P _ _ _ _ h1).1
          exact ih _ _ _ h (by rw [hd1]; exact hd) (ih _ _ _ h1 hd hu)
    | procF d cd =>
      simp only [step] at h
      split at h
      · cases h; exact hu
      · cases cd with
        | true =>
          simp only [if_pos rfl] at h
          exact ih _ _ _ h hd hu
        | false =>
          rw [if_neg (by decide : ¬ (false = true))] at h
          have hdd : Node.special s.currentDispatch ≠ Node.special SpecialNode.Unset :=
            fun hx => hd (Node.special.inj hx)
          exact ih _ _ _ h hd (addFn_noUnset hdd hu)
    | callable d =>
      simp only [step] at h
      by_cases hns : nodeSet s.currentNode = true
      · rw [if_pos hns] at h
        split at h
        · simp at h
        · rename_i s3 h3
          simp only [Option.some.injEq] at h
          subst h
          have hres := ih _ _ _ h3 hd (addFn_noUnset (nodeSet_ne hns) hu)
          exact hres
      · rw [if_neg hns] at h
        split at h
        · simp at h
        · rename_i s3 h3
          simp only [Option.some.injEq] at h
          subst h
          have hres := ih _ _ _ h3 hd hu
          exact hres

theorem visitLevel_mono {P : Program} {fuel : Nat} {c : ContractLevel} {s s' : BState}
    (h : visitLevel P fuel c s = some s') : StepOk s s' := by
  unfold visitLevel at h
  rcases h1 : visitExprs P fuel s c.stateVars with _ | s2 <;> rw [h1] at h
  · simp at h
  · simp only [Option.some_bind] at h
    rcases h2 : visitExprs P fuel s2 c.baseArgs with _ | s3 <;> rw [h2] at h
    · simp at h
    · simp only [Option.some_bind] at h
      have ha : StepOk s s3 := (step_mono P _ _ _ _ h1).trans (step_mono P _ _ _ _ h2)
      split at h
      · cases h; exact ha
      · exact ha.trans ((stepOk_addFn _ _ _).trans (step_mono P _ _ _ _ h))

theorem visitLevel_noUnset {P : Program} {fuel : Nat} {c : ContractLevel} {s s' : BState}
    (h : visitLevel P fuel c s = some s')
    (hd : s.currentDispatch ≠ SpecialNode.Unset)
    (hn : s.currentNode ≠ Node.special SpecialNode.Unset)
    (hu : hasKey s.edges (Node.special SpecialNode.Unset) = false) :
    hasKey s'.edges (Node.special SpecialNode.Unset) = false := by
  unfold visitLevel at h
  rcases h1 : visitExprs P fuel s c.stateVars with _ | s2 <;> rw [h1] at h
  · simp at h
  · simp only [Option.some_bind] at h
    rcases h2 : visitExprs P fuel s2 c.baseArgs with _ | s3 <;> rw [h2] at h
    · simp at h
    · simp only [Option.some_bind] at h
      have hok1 := step_mono P _ _ _ _ h1
      have hok2 := step_mono P _ _ _ _ h2
      have hd2 : s2.currentDispatch = s.currentDispatch := hok1.1
      have hd3 : s3.currentDispatch = s.currentDispatch := hok2.1.trans hd2
      have hn3 : s3.currentNode = s.currentNode := hok2.2.1.trans hok1.2.1
      have hu2 : hasKey s2.edges (Node.special SpecialNode.Unset) = false :=
        step_noUnset P _ _ _ _ h1 hd hu
      have hu3 : hasKey s3.edges (Node.special SpecialNode.Unset) = false :=
        step_noUnset P _ _ _ _ h2 (by rw [hd2]; exact hd) hu2
      split at h
      · cases h; exact hu3
      · exact step_noUnset P _ _ _ _ h (by rw [hd3]; exact hd)
          (addFn_noUnset (by rw [hn3]; exact hn) hu3)

theorem visitConstructor_mono {P : Program} {fuel : Nat} :
    ∀ (rest : List ContractLevel) (c : ContractLevel) (s s' : BState),
      visitConstructor P fuel c rest s = some s' → StepOk s s' := by
  intro rest
  induction rest with
  | nil =>
    intro c s s' h
    have h0 : visitLevel P fuel c s = some s' := h
    exact visitLevel_mono h0
  | cons c2 rest2 ih =>
    intro c s s' h
    have h0 : (visitConstructor P fuel c2 rest2 s).bind (visitLevel P fuel c) = some s' := h
    rcases h1 : visitConstructor P fuel c2 rest2 s with _ | s1 <;> rw [h1] at h0
    · simp at h0
    · simp only [Option.some_bind] at h0
      exact (ih _ _ _ h1).trans (visitLevel_mono h0)

theorem visitConstructor_noUnset {P : Program} {fuel : Nat} :
    ∀ (rest : List ContractLevel) (c : ContractLevel) (s s' : BState),
      visitConstructor P fuel c rest s = some s' →
      s.currentDispatch ≠ SpecialNode.Unset →
      s.currentNode ≠ Node.special SpecialNode.Unset →
      hasKey s.edges (Node.special SpecialNode.Unset) = false →
      hasKey s'.edges (Node.special SpecialNode.Unset) = false := by
  intro rest
  induction rest with
  | nil =>
    intro c s s' h hd hn hu
    have h0 : visitLevel P fuel c s = some s' := h
    exact visitLevel_noUnset h0 hd hn hu
  | cons c2 rest2 ih =>
    intro c s s' h hd hn hu
    have h0 : (visitConstructor P fuel c2 rest2 s).bind (visitLevel P fuel c) = some s' := h
    rcases h1 : visitConstructor P fuel c2 rest2 s with _ | s1 <;> rw [h1] at h0
    · simp at h0
    · simp only [Option.some_bind] at h0
      have hok := visitConstructor_mono _ _ _ _ h1
      exact visitLevel_noUnset h0 (by rw [hok.1]; exact hd) (by rw [hok.2.1]; exact hn)
        (ih _ _ _ h1 hd hn hu)

theorem hasKey_false_lookup {es : List (Node × List Nat)} {n : Node}
    (h : hasKey es n = false) : lookupEdges es n = none := by
  simp only [hasKey] at h
  cases hl : lookupEdges es n with
  | none => rfl
  | some l => rw [hl] at h; simp at h

theorem interfaceStep_mono {P : Program} {fuel : Nat} {s s' : BState} {ent : Nat × DeclKind}
    (h : interfaceStep P fuel s ent = some s') : StepOk s s' := by
  obtain ⟨d, k⟩ := ent
  have h0 : (if k = DeclKind.functionDef then
      (if hasKey s.edges (Node.callable d) = true then some s else visitCallable P fuel s d)
    else some s) = some s' := h
  clear h
  by_cases hk : k = DeclKind.functionDef
  · rw [if_pos hk] at h0
    by_cases hkey : hasKey s.edges (Node.callable d) = true
    · rw [if_pos hkey] at h0
      cases h0
      exact stepOk_refl _
    · rw [if_neg hkey] at h0
      exact step_mono P _ _ _ _ h0
  · rw [if_neg hk] at h0
    cases h0
    exact stepOk_refl _

theorem interfaceStep_noUnset {P : Program} {fuel : Nat} {s s' : BState} {ent : Nat × DeclKind}
    (h : interfaceStep P fuel s ent = some s')
    (hd : s.currentDispatch ≠ SpecialNode.Unset)
    (hu : hasKey s.edges (Node.special SpecialNode.Unset) = false) :
    hasKey s'.edges (Node.special SpecialNode.Unset) = false := by
  obtain ⟨d, k⟩ := ent
  have h0 : (if k = DeclKind.functionDef then
      (if hasKey s.edges (Node.callable d) = true then some s else visitCallable P fuel s d)
    else some s) = some s' := h
  clear h
  by_cases hk : k = DeclKind.functionDef
  · rw [if_pos hk] at h0
    by_cases hkey : hasKey s.edges (Node.callable d) = true
    · rw [if_pos hkey] at h0
      cases h0
      exact hu
    · rw [if_neg hkey] at h0
      exact step_noUnset P _ _ _ _ h0 hd hu
  · rw [if_neg hk] at h0
    cases h0
    exact hu

theorem interfaceLoop_mono {P : Program} {fuel : Nat} :
    ∀ (ents : List (Nat × DeclKind)) (s s' : BState),
      interfaceLoop P fuel s ents = some s' → StepOk s s' := by
  intro ents
  induction ents with
  | nil => intro s s' h; unfold interfaceLoop at h; cases h; exact stepOk_refl _
  | cons ent rest ih =>
    intro s s' h
    unfold interfaceLoop at h
    split at h
    · exact absurd h (by simp)
    · rename_i s1 h1
      exact (interfaceStep_mono h1).trans (ih _ _ h)

theorem interfaceLoop_noUnset {P : Program} {fuel : Nat} :
    ∀ (ents : List (Nat × DeclKind)) (s s' : BState),
      interfaceLoop P fuel s ents = some s' →
      s.currentDispatch ≠ SpecialNode.Unset →
      hasKey s.edges (Node.special SpecialNode.Unset) = false →
      hasKey s'.edges (Node.special SpecialNode.Unset) = false := by
  intro ents
  induction ents with
  | nil => intro s s' h hd hu; unfold interfaceLoop at h; cases h; exact hu
  | cons ent rest ih =>
    intro s s' h hd hu
    unfold interfaceLoop at h
    split at h
    · exact absurd h (by simp)
    · rename_i s1 h1
      have hok := interfaceStep_mono h1
      exact ih _ _ h (by rw [hok.1]; exact hd) (interfaceStep_noUnset h1 hd hu)

theorem addOpt_lookup_other {es : List (Node × List Nat)} {c n : Node} {o : Option Nat}
    (h : n ≠ c) : lookupEdges (addOpt es c o) n = lookupEdges es n := by
  cases o with
  | none => rfl
  | some f => exact addFn_lookup_other h

theorem mem_insertCreated (l : List Nat) (c : Nat) : c ∈ insertCreated l c := by
  unfold insertCreated
  by_cases hc : c ∈ l
  · simp [hc]
  · simp [hc]

/-- The final edge map of `finishGraph`, spelled out. -/
theorem finishGraph_edges_eq (c : Contract) (s : BState) :
    (finishGraph c s).edges =
      addOpt
        (addOpt
          (addAll (Node.special SpecialNode.RuntimeDispatch) (c.interfaceList.map Prod.fst)
            (addAll (Node.special SpecialNode.RuntimeDispatch)
              (getOrInsertEmpty s.edges (Node.special SpecialNode.CreationDispatch)).2
              (getOrInsertEmpty s.edges (Node.special SpecialNode.CreationDispatch)).1))
          (Node.special SpecialNode.RuntimeDispatch) c.fallbackFn)
        (Node.special SpecialNode.RuntimeDispatch) c.receiveFn := rfl

theorem goi_noUnset {es : List (Node × List Nat)} {k : Node}
    (hk : k ≠ Node.special SpecialNode.Unset)
    (hu : hasKey es (Node.special SpecialNode.Unset) = false) :
    hasKey (getOrInsertEmpty es k).1 (Node.special SpecialNode.Unset) = false := by
  cases hv : hasKey (getOrInsertEmpty es k).1 (Node.special SpecialNode.Unset) with
  | false => rfl
  | true =>
    rcases goi_hasKey_inv hv with h2 | h2
    · simp [hu] at h2
    · exact absurd h2.symm hk

theorem addAll_noUnset {es : List (Node × List Nat)} {c : Node} {l : List Nat}
    (hc : c ≠ Node.special SpecialNode.Unset)
    (hu : hasKey es (Node.special SpecialNode.Unset) = false) :
    hasKey (addAll c l es) (Node.special SpecialNode.Unset) = false := by
  cases hv : hasKey (addAll c l es) (Node.special SpecialNode.Unset) with
  | false => rfl
  | true =>
    rcases addAll_hasKey_inv l es hv with h2 | h2
    · simp [hu] at h2
    · exact absurd h2.symm hc

theorem addOpt_noUnset {es : List (Node × List Nat)} {c : Node} {o : Option Nat}
    (hc : c ≠ Node.special SpecialNode.Unset)
    (hu : hasKey es (Node.special SpecialNode.Unset) = false) :
    hasKey (addOpt es c o) (Node.special SpecialNode.Unset) = false := by
  cases hv : hasKey (addOpt es c o) (Node.special SpecialNode.Unset) with
  | false => rfl
  | true =>
    rcases addOpt_hasKey_inv hv with h2 | h2
    · simp [hu] at h2
    · exact absurd h2.symm hc

theorem finishGraph_noUnset {c : Contract} {s : BState}
    (hu : hasKey s.edges (Node.special SpecialNode.Unset) = false) :
    hasKey (finishGraph c s).edges (Node.special SpecialNode.Unset) = false := by
  rw [finishGraph_edges_eq]
  exact addOpt_noUnset (by simp) (addOpt_noUnset (by simp)
    (addAll_noUnset (by simp) (addAll_noUnset (by simp) (goi_noUnset (by simp) hu))))

/-- Decomposition of a successful `create` run into its phases. -/
theorem create_destruct {P : Program} {fuel : Nat} {c : Contract} {s' : BState}
    (h : create P fuel c = some s') :
    ∃ s1 s2, visitConstructor P fuel c.self c.bases initialState = some s1 ∧
      interfaceLoop P fuel
        { s1 with
          currentNode := Node.special SpecialNode.Unset
          currentDispatch := SpecialNode.RuntimeDispatch }
        c.interfaceList = some s2 ∧
      s' = finishGraph c s2 := by
  unfold create at h
  split at h
  · exact absurd h (by simp)
  · rename_i s1 h1
    split at h
    · exact absurd h (by simp)
    · rename_i s2 h2
      simp only [Option.some.injEq] at h
      exact ⟨s1, s2, h1, h2, h.symm⟩

/-- C2: after `create` completes, every callee of `CreationDispatch` is
also a callee of `RuntimeDispatch`. -/
theorem c2_creation_subset_runtime (P : Program) (fuel : Nat) (c : Contract) (s' : BState)
    (h : create P fuel c = some s') :
    ∀ x, edgeMem s'.edges (Node.special SpecialNode.CreationDispatch) x = true →
      edgeMem s'.edges (Node.special SpecialNode.RuntimeDispatch) x = true := by
  obtain ⟨s1, s2, h1, h2, hfin⟩ := create_destruct h
  subst hfin
  intro x hx
  have hcdrd : Node.special SpecialNode.CreationDispatch ≠
      Node.special SpecialNode.RuntimeDispatch := by simp
  rw [finishGraph_edges_eq] at hx ⊢
  unfold edgeMem at hx
  rw [addOpt_lookup_other hcdrd, addOpt_lookup_other hcdrd, addAll_lookup_other hcdrd,
    addAll_lookup_other hcdrd, goi_lookup_self] at hx
  simp only [Option.getD_some, decide_eq_true_eq] at hx
  exact addOpt_edgeMem_mono _ _ (addOpt_edgeMem_mono _ _
    (addAll_edgeMem_mono _ _ _ (addAll_mem_self _ _ _ _ hx)))

/-- Witness for C2: in the demo run, the creation-phase indirect call
expression 7 is a callee of `CreationDispatch` and of `RuntimeDispatch`. -/
theorem c2_creation_subset_runtime_witness :
    edgeMem demoS.edges (Node.special SpecialNode.CreationDispatch) 7 = true ∧
    edgeMem demoS.edges (Node.special SpecialNode.RuntimeDispatch) 7 = true :=
  ⟨by decide, c2_creation_subset_runtime demoP 10 demoK demoS (by decide) 7 (by decide)⟩

/-- C4: after `create` completes, every interface-list entry's declaration,
the fallback function when declared, and the receive function when
declared, are direct callees of `RuntimeDispatch`. -/
theorem c4_runtime_entry_completeness (P : Program) (fuel : Nat) (c : Contract) (s' : BState)
    (h : create P fuel c = some s') :
    (∀ ent ∈ c.interfaceList,
      edgeMem s'.edges (Node.special SpecialNode.RuntimeDispatch) ent.1 = true) ∧
    (∀ f, c.fallbackFn = some f →
      edgeMem s'.edges (Node.special SpecialNode.RuntimeDispatch) f = true) ∧
    (∀ r2, c.receiveFn = some r2 →
      edgeMem s'.edges (Node.special SpecialNode.RuntimeDispatch) r2 = true) := by
  obtain ⟨s1, s2, h1, h2, hfin⟩ := create_destruct h
  subst hfin
  refine ⟨?_, ?_, ?_⟩
  · intro ent hent
    rw [finishGraph_edges_eq]
    exact addOpt_edgeMem_mono _ _ (addOpt_edgeMem_mono _ _
      (addAll_mem_self _ _ _ _ (List.mem_map_of_mem Prod.fst hent)))
  · intro f hf
    rw [finishGraph_edges_eq, hf]
    exact addOpt_edgeMem_mono _ _ (addFn_edgeMem_self _ _ _)
  · intro r2 hr2
    rw [finishGraph_edges_eq, hr2]
    exact addFn_edgeMem_self _ _ _

/-- Witness for C4 at the demo contract: interface function 1, fallback 3
and receive 4 are all direct callees of `RuntimeDispatch`. -/
theorem c4_runtime_entry_completeness_witness :
    edgeMem demoS.edges (Node.special SpecialNode.RuntimeDispatch) 1 = true ∧
    edgeMem demoS.edges (Node.special SpecialNode.RuntimeDispatch) 3 = true ∧
    edgeMem demoS.edges (Node.special SpecialNode.RuntimeDispatch) 4 = true :=
  ⟨(c4_runtime_entry_completeness demoP 10 demoK demoS (by decide)).1
      (1, DeclKind.functionDef) (by decide),
   (c4_runtime_entry_completeness demoP 10 demoK demoS (by decide)).2.1 3 rfl,
   (c4_runtime_entry_completeness demoP 10 demoK demoS (by decide)).2.2 4 rfl⟩

/-- C9: the special node `Unset` never appears as a key of the edge map of
the graph returned by `create`. -/
theorem c9_no_unset_key (P : Program) (fuel : Nat) (c : Contract) (s' : BState)
    (h : create P fuel c = some s') :
    hasKey s'.edges (Node.special SpecialNode.Unset) = false := by
  obtain ⟨s1, s2, h1, h2, hfin⟩ := create_destruct h
  subst hfin
  have hu1 : hasKey s1.edges (Node.special SpecialNode.Unset) = false :=
    visitConstructor_noUnset _ _ _ _ h1 (by decide) (by decide) rfl
  have hu2 : hasKey s2.edges (Node.special SpecialNode.Unset) = false :=
    interfaceLoop_noUnset _ _ _ h2 (by simp) hu1
  exact finishGraph_noUnset hu2

/-- Witness for C9 at the demo contract. -/
theorem c9_no_unset_key_witness :
    create demoP 10 demoK = some demoS ∧
    hasKey demoS.edges (Node.special SpecialNode.Unset) = false :=
  ⟨by decide, c9_no_unset_key demoP 10 demoK demoS (by decide)⟩

/-- C10: `CreationDispatch` is always a key of the edge map of the graph
returned by `create`, because the merge step reads it through a
default-inserting map access. -/
theorem c10_creation_dispatch_key (P : Program) (fuel : Nat) (c : Contract) (s' : BState)
    (h : create P fuel c = some s') :
    hasKey s'.edges (Node.special SpecialNode.CreationDispatch) = true := by
  obtain ⟨s1, s2, h1, h2, hfin⟩ := create_destruct h
  subst hfin
  rw [finishGraph_edges_eq]
  exact addOpt_hasKey_mono _ _ (addOpt_hasKey_mono _ _
    (addAll_hasKey_mono _ _ _ (addAll_hasKey_mono _ _ _ (goi_hasKey_self _ _))))

/-- Witness for C10 at the demo contract. -/
theorem c10_creation_dispatch_key_witness :
    create demoP 10 demoK = some demoS ∧
    hasKey demoS.edges (Node.special SpecialNode.CreationDispatch) = true :=
  ⟨by decide, c10_creation_dispatch_key demoP 10 demoK demoS (by decide)⟩

/-- C3: when processing a resolved callable declaration, an existing
edge-map entry stops processing with the state unchanged; otherwise an edge
from the current dispatch node to the declaration is added first exactly
when the call was not direct, and the declaration is then traversed via
`visitCallable`, which records the traversal (with the previous caller) and
restores the previous caller on return. -/
theorem c3_processFunction_spec (P : Program) (fuel : Nat) (s : BState) (d : Nat) (cd : Bool) :
    ((lookupEdges s.edges (Node.callable d)).isSome = true →
      processFunction P (fuel + 1) s d cd = some s) ∧
    (lookupEdges s.edges (Node.callable d) = none → cd = true →
      processFunction P (fuel + 1) s d cd = visitCallable P fuel s d) ∧
    (lookupEdges s.edges (Node.callable d) = none → cd = false →
      processFunction P (fuel + 1) s d cd =
        visitCallable P fuel
          { s with edges := (addFn s.edges (Node.special s.currentDispatch) d).1 } d) ∧
    (∀ s2 s', visitCallable P fuel s2 d = some s' →
      (⟨d, hasKey s2.edges (Node.callable d), s2.currentNode⟩ : VisitEv) ∈ s'.trace ∧
      s'.currentNode = s2.currentNode) := by
  refine ⟨?_, ?_, ?_, ?_⟩
  · intro hx
    show step P (fuel + 1) s (Req.procF d cd) = some s
    simp only [step]
    rw [if_pos hx]
  · intro hx hcd
    subst hcd
    show step P (fuel + 1) s (Req.procF d true) = visitCallable P fuel s d
    simp only [step]
    rw [hx]
    rw [if_neg (by decide : ¬ ((none : Option (List Nat)).isSome = true))]
    simp
  · intro hx hcd
    subst hcd
    show step P (fuel + 1) s (Req.procF d false) =
      visitCallable P fuel
        { s with edges := (addFn s.edges (Node.special s.currentDispatch) d).1 } d
    simp only [step]
    rw [hx]
    rw [if_neg (by decide : ¬ ((none : Option (List Nat)).isSome = true))]
    rw [if_neg (by decide : ¬ (false = true))]
  · intro s2 s' h
    cases fuel with
    | zero => simp [visitCallable, step] at h
    | succ fuel =>
      simp only [visitCallable, step] at h
      by_cases hns : nodeSet s2.currentNode = true
      · rw [if_pos hns] at h
        split at h
        · simp at h
        · rename_i s3 h3
          simp only [Option.some.injEq] at h
          subst h
          refine ⟨?_, rfl⟩
          have hmx := (step_mono P _ _ _ _ h3).2.2.1
          exact hmx _ (List.mem_append_right _ (List.mem_singleton.mpr rfl))
      · rw [if_neg hns] at h
        split at h
        · simp at h
        · rename_i s3 h3
          simp only [Option.some.injEq] at h
          subst h
          refine ⟨?_, rfl⟩
          have hmx := (step_mono P _ _ _ _ h3).2.2.1
          exact hmx _ (List.mem_append_right _ (List.mem_singleton.mpr rfl))

/-- Witness for C3 at concrete states: an existing entry stops processing,
a direct call traverses without a dispatch edge, an indirect call adds the
dispatch edge first, and a traversal records its event and restores the
caller. -/
theorem c3_processFunction_spec_witness :
    processFunction demoP 3 entryS 1 true = some entryS ∧
    processFunction demoP 3 initialState 1 true = visitCallable demoP 2 initialState 1 ∧
    processFunction demoP 3 initialState 1 false =
      visitCallable demoP 2
        { initialState with
          edges := (addFn initialState.edges
            (Node.special initialState.currentDispatch) 1).1 } 1 ∧
    ((⟨1, false, Node.special SpecialNode.Unset⟩ : VisitEv) ∈
        [(⟨1, false, Node.special SpecialNode.Unset⟩ : VisitEv)] ∧
      (Node.special SpecialNode.Unset) = runtimeS.currentNode) :=
  ⟨(c3_processFunction_spec demoP 2 entryS 1 true).1 (by decide),
   (c3_processFunction_spec demoP 2 initialState 1 true).2.1 (by decide) rfl,
   (c3_processFunction_spec demoP 2 initialState 1 false).2.2.1 (by decide) rfl,
   (c3_processFunction_spec demoP 2 runtimeS 1 true).2.2.2 runtimeS
     ⟨[], [], Node.special SpecialNode.Unset, SpecialNode.RuntimeDispatch,
       [⟨1, false, Node.special SpecialNode.Unset⟩]⟩ (by decide)⟩

/-- C5 (amended): during the runtime phase, an interface-list entry whose
declaration is a `FunctionDefinition` and which has no edge-map entry at
its loop iteration is traversed as a fresh root: the caller context is
`Unset`, so the traversal event records no previous caller and the caller
context is `Unset` again afterwards.  Entries whose declaration is not a
`FunctionDefinition` (such as getters of public state variables) are
skipped. -/
theorem c5_interface_entry_traversal (P : Program) (fuel : Nat) (s : BState) (d : Nat)
    (hn : s.currentNode = Node.special SpecialNode.Unset)
    (hkey : hasKey s.edges (Node.callable d) = false) :
    interfaceStep P fuel s (d, DeclKind.functionDef) = visitCallable P fuel s d ∧
    ∀ s', visitCallable P fuel s d = some s' →
      (⟨d, false, Node.special SpecialNode.Unset⟩ : VisitEv) ∈ s'.trace ∧
      s'.currentNode = Node.special SpecialNode.Unset := by
  constructor
  · have h0 : interfaceStep P fuel s (d, DeclKind.functionDef) =
        (if DeclKind.functionDef = DeclKind.functionDef then
          (if hasKey s.edges (Node.callable d) = true then some s
           else visitCallable P fuel s d)
        else some s) := rfl
    rw [h0, if_pos rfl, hkey, if_neg (by decide : ¬ (false = true))]
  · intro s' h
    cases fuel with
    | zero => simp [visitCallable, step] at h
    | succ fuel =>
      simp only [visitCallable, step] at h
      rw [hasKey_false_lookup hkey] at h
      simp only [Option.isSome_none] at h
      rw [hn] at h
      rw [if_neg (by decide : ¬ (nodeSet (Node.special SpecialNode.Unset) = true))] at h
      split at h
      · simp at h
      · rename_i s3 h3
        simp only [Option.some.injEq] at h
        subst h
        refine ⟨?_, rfl⟩
        have hmx := (step_mono P _ _ _ _ h3).2.2.1
        exact hmx _ (List.mem_append_right _ (List.mem_singleton.mpr rfl))

/-- C5 counterexample: the only interface entry of `getterK` is the getter
of a public state variable (declaration 5, a `VariableDeclaration`); it is
absent from the edge map, yet the runtime phase never traverses it — no
traversal event for 5 is recorded — because the loop only traverses
entries whose declaration casts to `FunctionDefinition`. -/
theorem c5_counterexample :
    (create demoP 5 getterK).map
      (fun s => (countVisits s.trace 5, hasKey s.edges (Node.callable 5))) = some (0, false) ∧
    (5, DeclKind.variableDecl) ∈ getterK.interfaceList := by
  exact ⟨by decide, by decide⟩

/-- Witness for the amended C5 theorem at a concrete runtime-phase state. -/
theorem c5_interface_entry_traversal_witness :
    interfaceStep demoP 3 runtimeS (1, DeclKind.functionDef) =
      visitCallable demoP 3 runtimeS 1 ∧
    ((⟨1, false, Node.special SpecialNode.Unset⟩ : VisitEv) ∈
        [(⟨1, false, Node.special SpecialNode.Unset⟩ : VisitEv)] ∧
      (Node.special SpecialNode.Unset) = (Node.special SpecialNode.Unset : Node)) :=
  ⟨(c5_interface_entry_traversal demoP 3 runtimeS 1 rfl rfl).1,
   (c5_interface_entry_traversal demoP 3 runtimeS 1 rfl rfl).2
     ⟨[], [], Node.special SpecialNode.Unset, SpecialNode.RuntimeDispatch,
       [⟨1, false, Node.special SpecialNode.Unset⟩]⟩ (by decide)⟩

/-- C6: a call through an internal function value with no statically known
declaration contributes, beyond its children's own effects, exactly one
edge from the current dispatch node to the call expression itself, and no
edge to any declaration. -/
theorem c6_indirect_call_edge (P : Program) (fuel : Nat) (s : BState) (a : Ann) (nid : Nat)
    (callee : Expr) (args : List Expr) (ft : FunType)
    (hty : callee.typeOf = TypeC.funT ft) (hk : ft.kind = FKind.Internal)
    (hdc : ft.declId = none) :
    visitExpr P (fuel + 1) s (Expr.functionCall a nid callee args) =
      (childrenRun P fuel s callee args).map
        (fun s2 =>
          { s2 with edges := (addFn s2.edges (Node.special s2.currentDispatch) nid).1 }) ∧
    ∀ s', visitExpr P (fuel + 1) s (Expr.functionCall a nid callee args) = some s' →
      edgeMem s'.edges (Node.special s'.currentDispatch) nid = true := by
  have hstep : step P (fuel + 1) s (Req.expr (Expr.functionCall a nid callee args)) =
      (match step P fuel s (Req.expr callee) with
        | none => none
        | some s1 =>
          match step P fuel s1 (Req.exprs args) with
          | none => none
          | some s2 =>
            match callee.typeOf with
            | TypeC.funT ft =>
              if ft.kind = FKind.Internal ∧ ft.declId = none then
                some { s2 with
                  edges := (addFn s2.edges (Node.special s2.currentDispatch) nid).1 }
              else some s2
            | _ => some s2) := rfl
  have h1 : visitExpr P (fuel + 1) s (Expr.functionCall a nid callee args) =
      (childrenRun P fuel s callee args).map
        (fun s2 =>
          { s2 with edges := (addFn s2.edges (Node.special s2.currentDispatch) nid).1 }) := by
    show step P (fuel + 1) s (Req.expr (Expr.functionCall a nid callee args)) = _
    rw [hstep]
    unfold childrenRun
    simp only [visitExpr, visitExprs]
    rcases hc : step P fuel s (Req.expr callee) with _ | s1
    · rfl
    · simp only [Option.some_bind]
      rcases ha : step P fuel s1 (Req.exprs args) with _ | s2
      · rfl
      · rw [hty]
        show (if ft.kind = FKind.Internal ∧ ft.declId = none then
            some { s2 with
              edges := (addFn s2.edges (Node.special s2.currentDispatch) nid).1 }
          else some s2) =
          Option.map (fun s2 =>
            { s2 with edges := (addFn s2.edges (Node.special s2.currentDispatch) nid).1 })
            (some s2)
        rw [if_pos ⟨hk, hdc⟩]
        rfl
  refine ⟨h1, ?_⟩
  intro s' h
  rw [h1] at h
  rcases h3 : childrenRun P fuel s callee args with _ | s2 <;> rw [h3] at h
  · simp at h
  · simp only [Option.map_some', Option.some.injEq] at h
    subst h
    exact addFn_edgeMem_self _ _ _

/-- Witness for C6: a concrete indirect call (expression id 7) produces the
edge from the dispatch node to the call expression. -/
theorem c6_indirect_call_edge_witness :
    edgeMem [(Node.special SpecialNode.CreationDispatch, [7])]
      (Node.special SpecialNode.CreationDispatch) 7 = true :=
  (c6_indirect_call_edge demoP 2 initialState ⟨TypeC.otherT, none, false⟩ 7
    (Expr.identifier ⟨TypeC.funT ⟨FKind.Internal, false, none⟩, none, false⟩) []
    ⟨FKind.Internal, false, none⟩ rfl rfl rfl).2
    ⟨[(Node.special SpecialNode.CreationDispatch, [7])], [],
      Node.special SpecialNode.CreationRoot, SpecialNode.CreationDispatch, []⟩
    (by decide)

/-- C7: a construction expression whose type name denotes a contract type
records the contract in `createdContracts` and adds no call edge. -/
theorem c7_new_expression_records_contract (P : Program) (fuel : Nat) (s : BState)
    (a : Ann) (cid : Nat) (sup : Bool) :
    visitExpr P (fuel + 1) s (Expr.newExpr a (TypeC.contractT cid sup)) =
      some { s with createdContracts := insertCreated s.createdContracts cid } ∧
    ∀ s', visitExpr P (fuel + 1) s (Expr.newExpr a (TypeC.contractT cid sup)) = some s' →
      cid ∈ s'.createdContracts ∧ s'.edges = s.edges ∧ s'.trace = s.trace := by
  have h1 : visitExpr P (fuel + 1) s (Expr.newExpr a (TypeC.contractT cid sup)) =
      some { s with createdContracts := insertCreated s.createdContracts cid } := rfl
  refine ⟨h1, ?_⟩
  intro s' h
  rw [h1] at h
  simp only [Option.some.injEq] at h
  subst h
  exact ⟨mem_insertCreated _ _, rfl, rfl⟩

/-- Witness for C7 at a concrete construction expression creating
contract 5. -/
theorem c7_new_expression_records_contract_witness :
    visitExpr demoP 1 initialState
        (Expr.newExpr ⟨TypeC.otherT, none, false⟩ (TypeC.contractT 5 false)) =
      some { initialState with createdContracts := [5] } ∧
    5 ∈ ([5] : List Nat) :=
  ⟨(c7_new_expression_records_contract demoP 0 initialState
      ⟨TypeC.otherT, none, false⟩ 5 false).1,
   ((c7_new_expression_records_contract demoP 0 initialState
      ⟨TypeC.otherT, none, false⟩ 5 false).2 _ rfl).1⟩

/-- C8: the edge-adding operation returns true exactly when the edge was
not already present, the edge is present afterwards in every case, and the
caller's entry is created lazily on its first outgoing edge. -/
theorem c8_addEdge_spec (es : List (Node × List Nat)) (caller : Node) (callee : Nat) :
    ((addFn es caller callee).2 = true ↔ edgeMem es caller callee = false) ∧
    edgeMem (addFn es caller callee).1 caller callee = true ∧
    (lookupEdges es caller = none →
      lookupEdges (addFn es caller callee).1 caller = some [callee]) := by
  refine ⟨?_, addFn_edgeMem_self _ _ _, ?_⟩
  · rw [addFn_snd]
    cases edgeMem es caller callee <;> simp
  · intro hx
    rw [addFn_lookup_self, hx]

/-- Witness for C8 at an empty edge map. -/
theorem c8_addEdge_spec_witness :
    (addFn [] (Node.special SpecialNode.RuntimeDispatch) 3).2 = true ∧
    edgeMem (addFn [] (Node.special SpecialNode.RuntimeDispatch) 3).1
      (Node.special SpecialNode.RuntimeDispatch) 3 = true ∧
    lookupEdges (addFn [] (Node.special SpecialNode.RuntimeDispatch) 3).1
      (Node.special SpecialNode.RuntimeDispatch) = some [3] :=
  ⟨((c8_addEdge_spec [] (Node.special SpecialNode.RuntimeDispatch) 3).1).mpr (by decide),
   (c8_addEdge_spec [] (Node.special SpecialNode.RuntimeDispatch) 3).2.1,
   (c8_addEdge_spec [] (Node.special SpecialNode.RuntimeDispatch) 3).2.2 rfl⟩

end SolCG
